import Mathlib

/-!
# Verification of the `erl_tokenize` Erlang lexer

Shallow embedding of the crate's data model (`src/tokens.rs`) and of its
scanning engine.  The token enums `Keyword`, `Symbol` and `Whitespace` and the
conversions `Keyword::from_str`, `Keyword::as_str` and `Whitespace::as_char`
are translated directly from `src/tokens.rs`.  The scanning engine itself
(the crate's `position`, `values`, `token` and `tokenizer` modules) is not
part of the visible sources — only its declarations in `lib.rs`, its tests and
the CLI caller are — so those parts are modelled from the specification, as
marked on each definition.
-/

namespace ErlTokenize

/-- Position embedded from the spec's data model: `{line, column, byte offset,
character offset}`.  The crate's `position` module is absent from the visible
sources. -/
structure Position where
  line : Nat
  column : Nat
  offset : Nat
  byteOffset : Nat
  deriving DecidableEq, Repr

/-- Modelled from the spec: scanning starts at line 1, column 1, offset 0. -/
def Position.initial : Position := ⟨1, 1, 0, 0⟩

/-- Modelled from the spec (§4.1 Position Tracker): `advance(character)`
updates the offsets always; resets the column and increments the line on a
newline; otherwise increments the column. -/
def Position.advance (p : Position) (c : Char) : Position :=
  if c = '\n' then ⟨p.line + 1, 1, p.offset + 1, p.byteOffset + c.utf8Size⟩
  else ⟨p.line, p.column + 1, p.offset + 1, p.byteOffset + c.utf8Size⟩

/-- Advance a position over a list of consumed characters. -/
def advanceOver (p : Position) (cs : List Char) : Position :=
  cs.foldl Position.advance p

/-- White space token (`enum Whitespace` in `src/tokens.rs`). -/
inductive Whitespace where
  | Space
  | Tab
  | Return
  | Newline
  | NoBreakSpace
  deriving DecidableEq, Repr

/-- `Whitespace::as_char` from `src/tokens.rs`. -/
def Whitespace.as_char : Whitespace → Char
  | .Space => ' '
  | .Tab => '\t'
  | .Return => '\r'
  | .Newline => '\n'
  | .NoBreakSpace => '\u00A0'

/-- Modelled from the spec (§4.6): the conversion from a whitespace character
to its `Whitespace` variant; the crate's recognizer module is absent from the
visible sources.  Only called on the five whitespace characters. -/
def Whitespace.from_char (c : Char) : Whitespace :=
  if c = ' ' then .Space
  else if c = '\t' then .Tab
  else if c = '\r' then .Return
  else if c = '\n' then .Newline
  else .NoBreakSpace

/-- Keyword tokens (`enum Keyword` in `src/tokens.rs`): Erlang's 27 reserved
words. -/
inductive Keyword where
  | After | And | Andalso | Band | Begin | Bnot | Bor | Bsl | Bsr | Bxor
  | Case | Catch | Cond | Div | End | Fun | If | Let | Not | Of
  | Or | Orelse | Receive | Rem | Try | When | Xor
  deriving DecidableEq, Repr

/-- `Keyword::from_str` from `src/tokens.rs`: the source's `match` over the 27
reserved spellings, written as the equivalent chain of string comparisons in
source order. -/
def Keyword.from_str (s : String) : Option Keyword :=
  if s = "after" then some .After
  else if s = "and" then some .And
  else if s = "andalso" then some .Andalso
  else if s = "band" then some .Band
  else if s = "begin" then some .Begin
  else if s = "bnot" then some .Bnot
  else if s = "bor" then some .Bor
  else if s = "bsl" then some .Bsl
  else if s = "bsr" then some .Bsr
  else if s = "bxor" then some .Bxor
  else if s = "case" then some .Case
  else if s = "catch" then some .Catch
  else if s = "cond" then some .Cond
  else if s = "div" then some .Div
  else if s = "end" then some .End
  else if s = "fun" then some .Fun
  else if s = "if" then some .If
  else if s = "let" then some .Let
  else if s = "not" then some .Not
  else if s = "of" then some .Of
  else if s = "or" then some .Or
  else if s = "orelse" then some .Orelse
  else if s = "receive" then some .Receive
  else if s = "rem" then some .Rem
  else if s = "try" then some .Try
  else if s = "when" then some .When
  else if s = "xor" then some .Xor
  else none

/-- `Keyword::as_str` from `src/tokens.rs`. -/
def Keyword.as_str : Keyword → String
  | .After => "after"
  | .And => "and"
  | .Andalso => "andalso"
  | .Band => "band"
  | .Begin => "begin"
  | .Bnot => "bnot"
  | .Bor => "bor"
  | .Bsl => "bsl"
  | .Bsr => "bsr"
  | .Bxor => "bxor"
  | .Case => "case"
  | .Catch => "catch"
  | .Cond => "cond"
  | .Div => "div"
  | .End => "end"
  | .Fun => "fun"
  | .If => "if"
  | .Let => "let"
  | .Not => "not"
  | .Of => "of"
  | .Or => "or"
  | .Orelse => "orelse"
  | .Receive => "receive"
  | .Rem => "rem"
  | .Try => "try"
  | .When => "when"
  | .Xor => "xor"

/-- The 27 reserved spellings, in the order of the source's `match`. -/
def reservedWords : List String :=
  ["after", "and", "andalso", "band", "begin", "bnot", "bor", "bsl", "bsr",
   "bxor", "case", "catch", "cond", "div", "end", "fun", "if", "let", "not",
   "of", "or", "orelse", "receive", "rem", "try", "when", "xor"]

/-- The `match` table of `Keyword::from_str` as an association list, for
reasoning about the 27-armed match uniformly. -/
def kwTable : List (String × Keyword) :=
  [("after", .After), ("and", .And), ("andalso", .Andalso), ("band", .Band),
   ("begin", .Begin), ("bnot", .Bnot), ("bor", .Bor), ("bsl", .Bsl),
   ("bsr", .Bsr), ("bxor", .Bxor), ("case", .Case), ("catch", .Catch),
   ("cond", .Cond), ("div", .Div), ("end", .End), ("fun", .Fun),
   ("if", .If), ("let", .Let), ("not", .Not), ("of", .Of), ("or", .Or),
   ("orelse", .Orelse), ("receive", .Receive), ("rem", .Rem), ("try", .Try),
   ("when", .When), ("xor", .Xor)]

/-- First-match lookup in an association list, exactly the shape of the
source's `match`. -/
def lookupKw : List (String × Keyword) → String → Option Keyword
  | [], _ => none
  | (t, v) :: rest, s => if s = t then some v else lookupKw rest s

/-- All 27 `Keyword` variants, in declaration order. -/
def kwAll : List Keyword :=
  [.After, .And, .Andalso, .Band, .Begin, .Bnot, .Bor, .Bsl, .Bsr, .Bxor,
   .Case, .Catch, .Cond, .Div, .End, .Fun, .If, .Let, .Not, .Of, .Or,
   .Orelse, .Receive, .Rem, .Try, .When, .Xor]

/-- Symbol tokens (`enum Symbol` in `src/tokens.rs`). -/
inductive Symbol where
  | OpenSquare | CloseSquare | OpenParen | CloseParen | OpenBrace | CloseBrace
  | Sharp | Slash | Dot | Comma | Colon | Semicolon | Match | MapMatch
  | VerticalBar | DoubleVerticalBar | Question | Not | Hyphen | MinusMinus
  | Plus | PlusPlus | Multiply | RightAllow | LeftAllow | DoubleRightAllow
  | DoubleLeftAllow | DoubleRightAngle | DoubleLeftAngle | Eq | ExactEq
  | NotEq | ExactNotEq | Greater | GreaterEq | Less | LessEq
  deriving DecidableEq, Repr

/-- Each symbol's lexeme, from the doc comments of `enum Symbol` in
`src/tokens.rs` (the doc comment of `Dot` is blank there; its lexeme `.` is
modelled from the spec's symbol-table examples). -/
def Symbol.as_str : Symbol → String
  | .OpenSquare => "["
  | .CloseSquare => "]"
  | .OpenParen => "("
  | .CloseParen => ")"
  | .OpenBrace => "\x7b"
  | .CloseBrace => "\x7d"
  | .Sharp => "#"
  | .Slash => "/"
  | .Dot => "."
  | .Comma => ","
  | .Colon => ":"
  | .Semicolon => ";"
  | .Match => "="
  | .MapMatch => ":="
  | .VerticalBar => "|"
  | .DoubleVerticalBar => "||"
  | .Question => "?"
  | .Not => "!"
  | .Hyphen => "-"
  | .MinusMinus => "--"
  | .Plus => "+"
  | .PlusPlus => "++"
  | .Multiply => "*"
  | .RightAllow => "->"
  | .LeftAllow => "<-"
  | .DoubleRightAllow => "=>"
  | .DoubleLeftAllow => "<="
  | .DoubleRightAngle => ">>"
  | .DoubleLeftAngle => "<<"
  | .Eq => "=="
  | .ExactEq => "=:="
  | .NotEq => "/="
  | .ExactNotEq => "=/="
  | .Greater => ">"
  | .GreaterEq => ">="
  | .Less => "<"
  | .LessEq => "=<"

/-- Modelled from the spec (§4.5): the fixed candidate table for symbol
recognition, ordered longest-first (length 3, then 2, then 1). -/
def symbols : List Symbol :=
  [.ExactEq, .ExactNotEq,
   .MapMatch, .DoubleVerticalBar, .MinusMinus, .PlusPlus, .RightAllow,
   .LeftAllow, .DoubleRightAllow, .DoubleLeftAllow, .DoubleRightAngle,
   .DoubleLeftAngle, .Eq, .NotEq, .GreaterEq, .LessEq,
   .OpenSquare, .CloseSquare, .OpenParen, .CloseParen, .OpenBrace,
   .CloseBrace, .Sharp, .Slash, .Dot, .Comma, .Colon, .Semicolon, .Match,
   .VerticalBar, .Question, .Not, .Hyphen, .Plus, .Multiply, .Greater, .Less]

/-! ## Character classes

Modelled from the spec (§4.3, §4.6) and the crate's tests: letters cover the
ASCII ranges and the Latin-1 letter ranges (the tests tokenize `comté` and
`äfunc` as atoms), with the two Latin-1 non-letters `×` (215) and `÷` (247)
excluded.  All classes are phrased over `Char.toNat` codepoints. -/

/-- Modelled from the spec (§4.6): space, tab, carriage return, line feed and
no-break space (codepoints 32, 9, 13, 10, 160). -/
def isWhitespaceChar (c : Char) : Bool :=
  decide (c.toNat = 32 ∨ c.toNat = 9 ∨ c.toNat = 13 ∨ c.toNat = 10 ∨ c.toNat = 160)

/-- The no-break space character U+00A0. -/
def NBSP : Char := Char.ofNat 160

/-- Lowercase letters: `a`–`z` (97–122) and `ß`–`ÿ` (223–255) without `÷` (247). -/
def isLowercaseLetter (c : Char) : Bool :=
  decide ((97 ≤ c.toNat ∧ c.toNat ≤ 122) ∨
          (223 ≤ c.toNat ∧ c.toNat ≤ 255 ∧ c.toNat ≠ 247))

/-- Uppercase letters: `A`–`Z` (65–90) and `À`–`Þ` (192–222) without `×` (215). -/
def isUppercaseLetter (c : Char) : Bool :=
  decide ((65 ≤ c.toNat ∧ c.toNat ≤ 90) ∨
          (192 ≤ c.toNat ∧ c.toNat ≤ 222 ∧ c.toNat ≠ 215))

/-- ASCII decimal digits `0`–`9`. -/
def isErlDigit (c : Char) : Bool :=
  decide (48 ≤ c.toNat ∧ c.toNat ≤ 57)

/-- Characters allowed after the head of an atom or variable (§4.3):
letters, digits and underscore. -/
def isNameChar (c : Char) : Bool :=
  isLowercaseLetter c || isUppercaseLetter c || isErlDigit c || decide (c.toNat = 95)

/-- ASCII octal digits `0`–`7`. -/
def isOctalDigit (c : Char) : Bool :=
  decide (48 ≤ c.toNat ∧ c.toNat ≤ 55)

/-- ASCII letters and digits: the characters that can spell a radix digit. -/
def isAlnumAscii (c : Char) : Bool :=
  isErlDigit c || decide (97 ≤ c.toNat ∧ c.toNat ≤ 122) ||
    decide (65 ≤ c.toNat ∧ c.toNat ≤ 90)

/-- Value of a digit character: `0`–`9`, then `a`–`z` and `A`–`Z` as 10–35;
any other character maps to the sentinel 99, above every legal base. -/
def baseDigitVal (c : Char) : Nat :=
  if 48 ≤ c.toNat ∧ c.toNat ≤ 57 then c.toNat - 48
  else if 97 ≤ c.toNat ∧ c.toNat ≤ 122 then c.toNat - 97 + 10
  else if 65 ≤ c.toNat ∧ c.toNat ≤ 90 then c.toNat - 65 + 10
  else 99

/-- A digit valid in the declared base (§4.2). -/
def isBaseDigit (base : Nat) (c : Char) : Bool :=
  isAlnumAscii c && decide (baseDigitVal c < base)

/-- Unbounded-precision decoding of a digit string in a base (§4.2). -/
def digitsVal (base : Nat) (ds : List Char) : Nat :=
  ds.foldl (fun a c => a * base + baseDigitVal c) 0

/-- Strip digit-group underscores before decoding (§4.2). -/
def stripUnder (ds : List Char) : List Char :=
  ds.filter (fun c => c != '_')

/-! ## Token and error model -/

/-- The token representation: tagged union over the ten lexical kinds, each
owning its raw source text plus a decoded value where applicable
(spec §3; the enum variants mirror `src/tokens.rs`, where the raw-text-owning
wrapper types live in the crate's absent `token` module). -/
inductive Token where
  | atom (text : String) (value : String)
  | char (text : String) (value : Char)
  | comment (text : String)
  | float (text : String) (value : Rat)
  | integer (text : String) (value : Nat)
  | keyword (value : Keyword)
  | str (text : String) (value : String)
  | symbol (value : Symbol)
  | var (text : String)
  | whitespace (value : Whitespace)
  deriving DecidableEq, Repr

/-- The raw source text of a token (spec §3: a verbatim slice of the input). -/
def Token.text : Token → String
  | .atom t _ => t
  | .char t _ => t
  | .comment t => t
  | .float t _ => t
  | .integer t _ => t
  | .keyword k => k.as_str
  | .str t _ => t
  | .symbol s => s.as_str
  | .var t => t
  | .whitespace w => String.mk [w.as_char]

/-- The raw source text of a token, as a character list. -/
def Token.textChars (t : Token) : List Char := t.text.toList

/-- The error taxonomy of spec §7. -/
inductive ErrKind where
  | invalidInput
  | unterminatedLiteral
  | malformedNumber
  deriving DecidableEq, Repr

/-- An error, carrying the position of the offending character (§7). -/
structure Err where
  kind : ErrKind
  position : Position
  deriving DecidableEq, Repr

/-- A recognizer-level error: the offending character's index counted in
characters from the start of the failed scan. -/
structure ScanErr where
  kind : ErrKind
  errIdx : Nat
  deriving DecidableEq, Repr

/-- Shift a recognizer error by the number of characters the caller had
already consumed. -/
def ScanErr.shift (e : ScanErr) (n : Nat) : ScanErr := ⟨e.kind, e.errIdx + n⟩

/-! ## Recognizers (modelled from the spec, §4.2–§4.6) -/

/-- Modelled from the spec (§4.6): a comment runs from `%` to the end of the
line (exclusive) or end of input. -/
def scanComment (cs : List Char) : Token × List Char :=
  (.comment (String.mk (cs.takeWhile (fun c => c != '\n'))),
   cs.dropWhile (fun c => c != '\n'))

/-- Modelled from the spec (§4.3): a variable is
`(uppercase-letter|'_') (letter|digit|'_')*`; `c` is the already-inspected
head. -/
def scanVar (c : Char) (cs : List Char) : Token × List Char :=
  (.var (String.mk (c :: cs.takeWhile isNameChar)), cs.dropWhile isNameChar)

/-- Modelled from the spec (§4.3): an unquoted atom is
`lowercase-letter (letter|digit|'_')*`, reclassified as a `Keyword` when its
exact text matches the keyword set. -/
def scanAtom (c : Char) (cs : List Char) : Token × List Char :=
  let name := String.mk (c :: cs.takeWhile isNameChar)
  match Keyword.from_str name with
  | some k => (.keyword k, cs.dropWhile isNameChar)
  | none => (.atom name name, cs.dropWhile isNameChar)

/-- Modelled from the spec (§4.4): the named escapes after a backslash
(backspace, delete, escape, form feed, newline, carriage return, space, tab,
vertical tab); any other escaped character stands for itself, which covers
backslash and both quotes. -/
def namedEscape (c : Char) : Char :=
  if c = 'b' then Char.ofNat 8
  else if c = 'd' then Char.ofNat 127
  else if c = 'e' then Char.ofNat 27
  else if c = 'f' then Char.ofNat 12
  else if c = 'n' then '\n'
  else if c = 'r' then '\r'
  else if c = 's' then ' '
  else if c = 't' then '\t'
  else if c = 'v' then Char.ofNat 11
  else c

/-- Up to `k` leading octal digits. -/
def octTake : Nat → List Char → List Char
  | 0, _ => []
  | _, [] => []
  | k+1, c :: cs => if isOctalDigit c then c :: octTake k cs else []

/-- Decode an octal digit string. -/
def octalVal (ds : List Char) : Nat :=
  ds.foldl (fun a c => a * 8 + (c.toNat - 48)) 0

/-- Modelled from the spec (§4.4): decode one escape sequence, given the
characters following the backslash.  Returns the consumed characters and the
decoded character: a caret-prefixed control escape `\^X` decodes to
`code(X) mod 32` (consistent with the spec's own `$\^a = 0x01` example; the
spec's `code(X) - code('A') + 1` phrasing agrees on `@`–`_`, in particular on
uppercase letters), an octal sequence of 1–3 digits to its value, and named
or other escaped characters via `namedEscape`.  `none` means the input ended
inside the escape. -/
def scanEscape : List Char → Option (List Char × Char)
  | [] => none
  | c :: rest =>
    if c = '^' then
      match rest with
      | [] => none
      | x :: _ => some (['^', x], Char.ofNat (x.toNat % 32))
    else if isOctalDigit c then
      let os := octTake 3 (c :: rest)
      some (os, Char.ofNat (octalVal os))
    else some ([c], namedEscape c)

/-- Modelled from the spec (§4.4): scan a delimited literal's body after its
opening quote `q`, up to and including the closing quote.  Returns the
consumed characters, the decoded value and the rest; `none` when the input
ends before the closing delimiter (unterminated). -/
def scanStrBody (q : Char) : Nat → List Char → Option (List Char × List Char × List Char)
  | _, [] => none
  | 0, _ :: _ => none
  | fuel + 1, c :: cs' =>
    if c = q then some ([c], [], cs')
    else if c = '\\' then
      match scanEscape cs' with
      | none => none
      | some (esc, v) =>
        match scanStrBody q fuel (cs'.drop esc.length) with
        | none => none
        | some (con, val, rest) => some ('\\' :: (esc ++ con), v :: val, rest)
    else
      match scanStrBody q fuel cs' with
      | none => none
      | some (con, val, rest) => some (c :: con, c :: val, rest)

/-- Modelled from the spec (§4.4): a char literal is `$` plus one literal or
escaped character; `cs` is the input after the `$`.  Reaching end of input
raises an unterminated error positioned at the `$`. -/
def scanCharTok (cs : List Char) : Except ScanErr (Token × List Char) :=
  match cs with
  | [] => .error ⟨.unterminatedLiteral, 0⟩
  | c :: cs' =>
    if c = '\\' then
      match scanEscape cs' with
      | none => .error ⟨.unterminatedLiteral, 0⟩
      | some (esc, v) =>
        .ok (.char (String.mk ('$' :: '\\' :: esc)) v, cs'.drop esc.length)
    else .ok (.char (String.mk ['$', c]) c, cs')

/-- Modelled from the spec (§4.4): a string literal; `cs` is the input after
the opening `"`.  An unterminated literal's error is positioned at the
opening delimiter. -/
def scanStr (cs : List Char) : Except ScanErr (Token × List Char) :=
  match scanStrBody (Char.ofNat 34) cs.length cs with
  | none => .error ⟨.unterminatedLiteral, 0⟩
  | some (con, val, rest) =>
    .ok (.str (String.mk (Char.ofNat 34 :: con)) (String.mk val), rest)

/-- Modelled from the spec (§4.3): a quoted atom uses the string escape
grammar between single quotes and is never reclassified as a keyword; `cs` is
the input after the opening quote. -/
def scanQuotedAtom (cs : List Char) : Except ScanErr (Token × List Char) :=
  match scanStrBody (Char.ofNat 39) cs.length cs with
  | none => .error ⟨.unterminatedLiteral, 0⟩
  | some (con, val, rest) =>
    .ok (.atom (String.mk (Char.ofNat 39 :: con)) (String.mk val), rest)

/-- First violation of the digit-group underscore rule (§4.2) inside a run of
digits and underscores, as an index offset by `i`: every underscore must be
followed by a valid digit (a later underscore or the run's end makes it
dangling). -/
def groupErr (valid : Char → Bool) : List Char → Nat → Option Nat
  | [], _ => none
  | c :: rest, i =>
    if c = '_' then
      match rest with
      | d :: _ => if valid d then groupErr valid rest (i + 1) else some i
      | [] => some i
    else groupErr valid rest (i + 1)

/-- Modelled from the spec (§4.2): scan `digit+ ('_' digit+)*` for a digit
class.  Errors: no digit at all (index 0), a leading underscore (index 0), or
a dangling underscore (at the underscore's index). -/
def scanDigitsPart (valid : Char → Bool) (cs : List Char) :
    Except ScanErr (List Char × List Char) :=
  match cs.takeWhile (fun c => valid c || c == '_') with
  | [] => .error ⟨.malformedNumber, 0⟩
  | c :: run =>
    if c = '_' then .error ⟨.malformedNumber, 0⟩
    else
      match groupErr valid (c :: run) 0 with
      | some i => .error ⟨.malformedNumber, i⟩
      | none => .ok (c :: run, cs.dropWhile (fun c => valid c || c == '_'))

/-- Modelled from the spec (§4.2): scan an exponent `[eE][+-]? digit+
('_' digit+)*`; `cs` starts at the exponent marker.  A missing digit after
the marker or sign is a lexical error at the offending character. -/
def scanExpPart : List Char → Except ScanErr (List Char × Int × List Char)
  | [] => .error ⟨.malformedNumber, 0⟩
  | [_] => .error ⟨.malformedNumber, 1⟩
  | e :: s :: rest2 =>
    if s = '+' then
      match scanDigitsPart isErlDigit rest2 with
      | .error er => .error (er.shift 2)
      | .ok (ds, rest3) =>
        .ok (e :: s :: ds, (digitsVal 10 (stripUnder ds) : Int), rest3)
    else if s = '-' then
      match scanDigitsPart isErlDigit rest2 with
      | .error er => .error (er.shift 2)
      | .ok (ds, rest3) =>
        .ok (e :: s :: ds, -((digitsVal 10 (stripUnder ds) : Int)), rest3)
    else
      match scanDigitsPart isErlDigit (s :: rest2) with
      | .error er => .error (er.shift 1)
      | .ok (ds, rest3) =>
        .ok (e :: ds, (digitsVal 10 (stripUnder ds) : Int), rest3)

/-- Decoded value of a float literal (§4.2), as an exact rational:
`intpart.fracpart × 10^exponent` with underscores stripped.  The crate decodes
into a 64-bit float; the rational model is exact on every literal whose value
is representable. -/
def floatVal (ipart fpart : List Char) (ex : Int) : Rat :=
  let fd := (stripUnder fpart).length
  let m : Nat := digitsVal 10 (stripUnder ipart) * 10 ^ fd + digitsVal 10 (stripUnder fpart)
  if 0 ≤ ex then mkRat (m * 10 ^ ex.toNat) (10 ^ fd)
  else mkRat m (10 ^ fd * 10 ^ (-ex).toNat)

/-- Modelled from the spec (§4.2): the number recognizer.  `digit+
('_' digit+)*` optionally followed by `#` and base digits (radix 2–36)
forming an integer, or by `. digit+` and/or an exponent forming a float.  The
fraction path is taken only when the `.` is followed by a digit (so `1.` is
the integer 1); a digit not valid in the declared base, a dangling
underscore, or a missing digit after the exponent marker is a lexical error
at the offending character. -/
def scanNumber (cs : List Char) : Except ScanErr (Token × List Char) :=
  match scanDigitsPart isErlDigit cs with
  | .error e => .error e
  | .ok (ipart, rest1) =>
    match rest1 with
    | [] => .ok (.integer (String.mk ipart) (digitsVal 10 (stripUnder ipart)), [])
    | c1 :: rest2 =>
      if c1 = '#' then
        if digitsVal 10 (stripUnder ipart) < 2 ∨ 36 < digitsVal 10 (stripUnder ipart) then
          .error ⟨.malformedNumber, ipart.length⟩
        else
          match scanDigitsPart (isBaseDigit (digitsVal 10 (stripUnder ipart))) rest2 with
          | .error e => .error (e.shift (ipart.length + 1))
          | .ok (dpart, rest3) =>
            match rest3 with
            | d :: _ =>
              if isAlnumAscii d then
                .error ⟨.malformedNumber, ipart.length + 1 + dpart.length⟩
              else
                .ok (.integer (String.mk (ipart ++ c1 :: dpart))
                       (digitsVal (digitsVal 10 (stripUnder ipart)) (stripUnder dpart)), rest3)
            | [] =>
              .ok (.integer (String.mk (ipart ++ c1 :: dpart))
                     (digitsVal (digitsVal 10 (stripUnder ipart)) (stripUnder dpart)), [])
      else if c1 = '.' then
        match rest2 with
        | d :: _ =>
          if isErlDigit d then
            match scanDigitsPart isErlDigit rest2 with
            | .error e => .error (e.shift (ipart.length + 1))
            | .ok (fpart, rest3) =>
              match rest3 with
              | e2 :: _ =>
                if e2 = 'e' ∨ e2 = 'E' then
                  match scanExpPart rest3 with
                  | .error er => .error (er.shift (ipart.length + 1 + fpart.length))
                  | .ok (epart, ex, rest4) =>
                    .ok (.float (String.mk (ipart ++ c1 :: (fpart ++ epart)))
                           (floatVal ipart fpart ex), rest4)
                else
                  .ok (.float (String.mk (ipart ++ c1 :: fpart))
                         (floatVal ipart fpart 0), rest3)
              | [] =>
                .ok (.float (String.mk (ipart ++ c1 :: fpart))
                       (floatVal ipart fpart 0), [])
          else .ok (.integer (String.mk ipart) (digitsVal 10 (stripUnder ipart)), c1 :: rest2)
        | [] => .ok (.integer (String.mk ipart) (digitsVal 10 (stripUnder ipart)), [c1])
      else if c1 = 'e' ∨ c1 = 'E' then
        match scanExpPart (c1 :: rest2) with
        | .error er => .error (er.shift ipart.length)
        | .ok (epart, ex, rest4) =>
          .ok (.float (String.mk (ipart ++ epart)) (floatVal ipart [] ex), rest4)
      else .ok (.integer (String.mk ipart) (digitsVal 10 (stripUnder ipart)), c1 :: rest2)

/-- Modelled from the spec (§4.5): try each symbol candidate in the
longest-first table and commit to the first exact prefix match; when no
candidate matches, the character starts no token (InvalidInput). -/
def scanSymbol (cs : List Char) : Except ScanErr (Token × List Char) :=
  match symbols.find? (fun s => (Symbol.as_str s).toList.isPrefixOf cs) with
  | some s => .ok (.symbol s, cs.drop (Symbol.as_str s).toList.length)
  | none => .error ⟨.invalidInput, 0⟩

/-! ## Tokenizer orchestration (modelled from the spec, §4.7) -/

/-- Modelled from the spec (§4.7): one pull.  Dispatches on the peeked head
character `c` by the fixed precedence whitespace > comment > char literal >
string > quoted atom > number > variable > atom/keyword > symbol; `cs` is the
input after `c`. -/
def scanOne (c : Char) (cs : List Char) : Except ScanErr (Token × List Char) :=
  if isWhitespaceChar c then .ok (.whitespace (Whitespace.from_char c), cs)
  else if c = '%' then .ok (scanComment (c :: cs))
  else if c = '$' then scanCharTok cs
  else if c = Char.ofNat 34 then scanStr cs
  else if c = Char.ofNat 39 then scanQuotedAtom cs
  else if isErlDigit c then scanNumber (c :: cs)
  else if isUppercaseLetter c ∨ c = '_' then .ok (scanVar c cs)
  else if isLowercaseLetter c then .ok (scanAtom c cs)
  else scanSymbol (c :: cs)

/-- A produced token together with the position where its scan began and the
position immediately after its last consumed character (spec §4.1). -/
structure PosToken where
  token : Token
  startPos : Position
  endPos : Position
  deriving DecidableEq, Repr

/-- Modelled from the spec (§4.7): the pull loop.  Produces tokens until
clean exhaustion or a first error, which terminates the sequence; the fuel
argument (always at least the input length, which suffices because every
token consumes at least one character) only bounds the recursion. -/
def tokenizeLoop : Nat → Position → List Char → List PosToken × Option Err
  | _, _, [] => ([], none)
  | 0, pos, _ :: _ => ([], some ⟨.invalidInput, pos⟩)
  | fuel + 1, pos, c :: cs =>
    match scanOne c cs with
    | .error e => ([], some ⟨e.kind, advanceOver pos ((c :: cs).take e.errIdx)⟩)
    | .ok (t, rest) =>
      let pos2 := advanceOver pos t.textChars
      match tokenizeLoop fuel pos2 rest with
      | (ts, err) => (⟨t, pos, pos2⟩ :: ts, err)

/-- The tokenizer: the full fallible token sequence over a source string,
as the produced tokens followed by an optional terminal error (spec §6). -/
def tokenize (s : String) : List PosToken × Option Err :=
  tokenizeLoop s.toList.length Position.initial s.toList

/-- Concatenation of the raw texts of a token sequence, as characters. -/
def textsConcat : List PosToken → List Char
  | [] => []
  | pt :: ts => pt.token.textChars ++ textsConcat ts

/-- Concatenation of the raw texts of a token sequence. -/
def concatText : List PosToken → String
  | [] => ""
  | pt :: ts => pt.token.text ++ concatText ts

/-! ## Basic lemmas -/

theorem char_toNat_inj {c d : Char} (h : c.toNat = d.toNat) : c = d :=
  Char.ext (UInt32.ext h)

theorem toList_mk (l : List Char) : (String.mk l).toList = l := rfl

theorem from_str_eq_lookup (s : String) : Keyword.from_str s = lookupKw kwTable s := rfl

theorem kwTable_as_str : ∀ p ∈ kwTable, Keyword.as_str p.2 = p.1 := by
  simp [kwTable, Keyword.as_str]

theorem lookup_as_str (tbl : List (String × Keyword))
    (htbl : ∀ p ∈ tbl, Keyword.as_str p.2 = p.1) :
    ∀ s k, lookupKw tbl s = some k → Keyword.as_str k = s := by
  induction tbl with
  | nil => intro s k h; exact Option.noConfusion h
  | cons p rest ih =>
    intro s k h
    obtain ⟨t, v⟩ := p
    unfold lookupKw at h
    split_ifs at h with hs
    · injection h with hk; subst hk; rw [hs]; exact htbl (t, v) (by simp)
    · exact ih (fun p hp => htbl p (by simp [hp])) s k h

theorem keyword_as_str_of_from_str {s : String} {k : Keyword}
    (h : Keyword.from_str s = some k) : Keyword.as_str k = s := by
  rw [from_str_eq_lookup] at h
  exact lookup_as_str kwTable kwTable_as_str s k h

theorem keyword_from_str_as_str (k : Keyword) :
    Keyword.from_str (Keyword.as_str k) = some k := by
  cases k <;> simp [Keyword.from_str, Keyword.as_str]

theorem as_str_mem_reservedWords (k : Keyword) : Keyword.as_str k ∈ reservedWords := by
  cases k <;> simp [Keyword.as_str, reservedWords]

theorem keyword_from_str_none {s : String} (h : s ∉ reservedWords) :
    Keyword.from_str s = none := by
  match h2 : Keyword.from_str s with
  | none => rfl
  | some k => exact absurd (keyword_as_str_of_from_str h2 ▸ as_str_mem_reservedWords k) h

/-! ## Claim C2: `Keyword::from_str` accepts exactly the 27 reserved spellings -/

/-- Claim C2: `Keyword::from_str` returns `Some` for exactly the 27 reserved
spellings — every variant is hit, the variants' spellings enumerate
`reservedWords` (after, and, andalso, band, begin, bnot, bor, bsl, bsr, bxor,
case, catch, cond, div, end, fun, if, let, not, of, or, orelse, receive, rem,
try, when, xor) in order, each spelling maps to its corresponding variant —
and returns `None` for every other string. -/
theorem keyword_from_str_exact :
    (∀ k : Keyword, k ∈ kwAll) ∧
    kwAll.map Keyword.as_str = reservedWords ∧
    (∀ k : Keyword, Keyword.from_str (Keyword.as_str k) = some k) ∧
    (∀ s : String, s ∉ reservedWords → Keyword.from_str s = none) ∧
    (∀ (s : String) (k : Keyword), Keyword.from_str s = some k → s = Keyword.as_str k) :=
  ⟨fun k => by cases k <;> simp [kwAll], rfl, keyword_from_str_as_str,
   fun _ h => keyword_from_str_none h,
   fun _ _ h => (keyword_as_str_of_from_str h).symm⟩

/-- Witness for C2 at concrete inputs: `"foo"` is not reserved and maps to
`None`. -/
theorem keyword_from_str_exact_witness :
    "foo" ∉ reservedWords ∧ Keyword.from_str "foo" = none :=
  ⟨by simp [reservedWords], keyword_from_str_exact.2.2.2.1 "foo" (by simp [reservedWords])⟩

/-! ## Claim C10: `from_str` and `as_str` are mutually inverse -/

/-- Claim C10: `Keyword::from_str` and `Keyword::as_str` are mutually
inverse: `from_str (as_str k) = Some k` for every keyword `k`, and
`from_str s = Some k` implies `as_str k = s`. -/
theorem keyword_str_roundtrip :
    (∀ k : Keyword, Keyword.from_str (Keyword.as_str k) = some k) ∧
    (∀ (s : String) (k : Keyword), Keyword.from_str s = some k → Keyword.as_str k = s) :=
  ⟨keyword_from_str_as_str, fun _ _ h => keyword_as_str_of_from_str h⟩

/-- Witness for C10 at a concrete input: round trip through `"bor"`. -/
theorem keyword_str_roundtrip_witness :
    Keyword.from_str "bor" = some Keyword.Bor ∧ Keyword.as_str Keyword.Bor = "bor" := by
  have h1 : Keyword.from_str "bor" = some Keyword.Bor := keyword_str_roundtrip.1 Keyword.Bor
  exact ⟨h1, keyword_str_roundtrip.2 "bor" Keyword.Bor h1⟩

/-! ## Raw-text computation lemmas -/

@[simp] theorem textChars_atom (s v : String) : (Token.atom s v).textChars = s.toList := rfl

@[simp] theorem textChars_char (s : String) (v : Char) :
    (Token.char s v).textChars = s.toList := rfl

@[simp] theorem textChars_comment (s : String) : (Token.comment s).textChars = s.toList := rfl

@[simp] theorem textChars_float (s : String) (v : Rat) :
    (Token.float s v).textChars = s.toList := rfl

@[simp] theorem textChars_integer (s : String) (v : Nat) :
    (Token.integer s v).textChars = s.toList := rfl

@[simp] theorem textChars_keyword (k : Keyword) :
    (Token.keyword k).textChars = (Keyword.as_str k).toList := rfl

@[simp] theorem textChars_str (s v : String) : (Token.str s v).textChars = s.toList := rfl

@[simp] theorem textChars_symbol (s : Symbol) :
    (Token.symbol s).textChars = (Symbol.as_str s).toList := rfl

@[simp] theorem textChars_var (s : String) : (Token.var s).textChars = s.toList := rfl

@[simp] theorem textChars_whitespace (w : Whitespace) :
    (Token.whitespace w).textChars = [w.as_char] := rfl

/-! ## Consumption lemmas: every recognizer consumes exactly its raw text -/

theorem octTake_append (k : Nat) :
    ∀ cs : List Char, cs = octTake k cs ++ cs.drop (octTake k cs).length := by
  induction k with
  | zero => intro cs; simp [octTake]
  | succ k ih =>
    intro cs
    cases cs with
    | nil => simp [octTake]
    | cons c cs' =>
      unfold octTake
      split_ifs with h
      · simp only [List.length_cons, List.drop_succ_cons, List.cons_append]
        exact congrArg (c :: ·) (ih cs')
      · simp

theorem scanEscape_append {cs esc : List Char} {v : Char}
    (h : scanEscape cs = some (esc, v)) : esc ≠ [] ∧ cs = esc ++ cs.drop esc.length := by
  cases cs with
  | nil => exact Option.noConfusion h
  | cons c rest =>
    simp only [scanEscape] at h
    split_ifs at h with h1 h2
    · cases rest with
      | nil => exact Option.noConfusion h
      | cons x rest2 =>
        simp only [Option.some.injEq, Prod.mk.injEq] at h
        obtain ⟨hesc, hv⟩ := h
        subst hesc h1
        exact ⟨by simp, rfl⟩
    · simp only [Option.some.injEq, Prod.mk.injEq] at h
      obtain ⟨hesc, hv⟩ := h
      subst hesc
      refine ⟨?_, octTake_append 3 (c :: rest)⟩
      simp [octTake, h2]
    · simp only [Option.some.injEq, Prod.mk.injEq] at h
      obtain ⟨hesc, hv⟩ := h
      subst hesc
      exact ⟨by simp, rfl⟩

theorem scanStrBody_append {q : Char} : ∀ (fuel : Nat) (cs con val rest : List Char),
    scanStrBody q fuel cs = some (con, val, rest) → con ≠ [] ∧ cs = con ++ rest := by
  intro fuel
  induction fuel with
  | zero =>
    intro cs con val rest h
    cases cs with
    | nil => simp [scanStrBody] at h
    | cons c cs' => simp [scanStrBody] at h
  | succ fuel ih =>
    intro cs con val rest h
    cases cs with
    | nil => simp [scanStrBody] at h
    | cons c cs' =>
      simp only [scanStrBody] at h
      split_ifs at h with h1 h2
      · simp only [Option.some.injEq, Prod.mk.injEq] at h
        obtain ⟨hcon, hval, hrest⟩ := h
        subst hcon hrest
        exact ⟨by simp, rfl⟩
      · cases hesc : scanEscape cs' with
        | none => simp [hesc] at h
        | some ev =>
          obtain ⟨esc, v⟩ := ev
          cases hrec : scanStrBody q fuel (cs'.drop esc.length) with
          | none => simp [hesc, hrec] at h
          | some cvr =>
            obtain ⟨con2, val2, rest2⟩ := cvr
            simp only [hesc, hrec, Option.some.injEq, Prod.mk.injEq] at h
            obtain ⟨hcon, hval, hrest⟩ := h
            obtain ⟨hene, hesceq⟩ := scanEscape_append hesc
            obtain ⟨hcne, hceq⟩ := ih (cs'.drop esc.length) con2 val2 rest2 hrec
            subst hcon hrest
            rw [hceq] at hesceq
            subst h2
            exact ⟨by simp, by simp [hesceq, List.append_assoc]⟩
      · cases hrec : scanStrBody q fuel cs' with
        | none => simp [hrec] at h
        | some cvr =>
          obtain ⟨con2, val2, rest2⟩ := cvr
          simp only [hrec, Option.some.injEq, Prod.mk.injEq] at h
          obtain ⟨hcon, hval, hrest⟩ := h
          obtain ⟨hcne, hceq⟩ := ih cs' con2 val2 rest2 hrec
          subst hcon hrest
          exact ⟨by simp, by simp [hceq]⟩

theorem scanDigitsPart_append {valid : Char → Bool} {cs ds rest : List Char}
    (h : scanDigitsPart valid cs = .ok (ds, rest)) : ds ≠ [] ∧ cs = ds ++ rest := by
  unfold scanDigitsPart at h
  split at h
  · exact Except.noConfusion h
  · rename_i c run hrun
    split_ifs at h with hc
    split at h
    · exact Except.noConfusion h
    · simp only [Except.ok.injEq, Prod.mk.injEq] at h
      obtain ⟨hds, hrest⟩ := h
      subst hds hrest
      refine ⟨by simp, ?_⟩
      rw [← hrun]
      exact (List.takeWhile_append_dropWhile _ _).symm

theorem scanExpPart_append {cs ep rest : List Char} {ex : Int}
    (h : scanExpPart cs = .ok (ep, ex, rest)) : ep ≠ [] ∧ cs = ep ++ rest := by
  cases cs with
  | nil => simp [scanExpPart] at h
  | cons e rest1 =>
    cases rest1 with
    | nil => simp [scanExpPart] at h
    | cons s rest2 =>
      simp only [scanExpPart] at h
      split_ifs at h with hplus hminus
      · cases hd : scanDigitsPart isErlDigit rest2 with
        | error er => simp [hd] at h
        | ok p =>
          obtain ⟨ds, rest3⟩ := p
          simp only [hd, Except.ok.injEq, Prod.mk.injEq] at h
          obtain ⟨hep, hex, hrest⟩ := h
          obtain ⟨hne, heq⟩ := scanDigitsPart_append hd
          subst hep hrest
          exact ⟨by simp, by simp [heq]⟩
      · cases hd : scanDigitsPart isErlDigit rest2 with
        | error er => simp [hd] at h
        | ok p =>
          obtain ⟨ds, rest3⟩ := p
          simp only [hd, Except.ok.injEq, Prod.mk.injEq] at h
          obtain ⟨hep, hex, hrest⟩ := h
          obtain ⟨hne, heq⟩ := scanDigitsPart_append hd
          subst hep hrest
          exact ⟨by simp, by simp [heq]⟩
      · cases hd : scanDigitsPart isErlDigit (s :: rest2) with
        | error er => simp [hd] at h
        | ok p =>
          obtain ⟨ds, rest3⟩ := p
          simp only [hd, Except.ok.injEq, Prod.mk.injEq] at h
          obtain ⟨hep, hex, hrest⟩ := h
          obtain ⟨hne, heq⟩ := scanDigitsPart_append hd
          subst hep hrest
          exact ⟨by simp, by simp [heq]⟩

theorem isPrefixOf_append : ∀ (l cs : List Char), l.isPrefixOf cs = true →
    cs = l ++ cs.drop l.length := by
  intro l
  induction l with
  | nil => intro cs h; simp
  | cons a as ih =>
    intro cs h
    cases cs with
    | nil => simp [List.isPrefixOf] at h
    | cons b bs =>
      simp only [List.isPrefixOf, Bool.and_eq_true, beq_iff_eq] at h
      obtain ⟨hab, hpre⟩ := h
      subst hab
      simp only [List.length_cons, List.drop_succ_cons, List.cons_append]
      exact congrArg (a :: ·) (ih bs hpre)

theorem symbol_as_str_ne_nil (s : Symbol) : (Symbol.as_str s).toList ≠ [] := by
  cases s <;> decide

theorem scanSymbol_append {cs : List Char} {t : Token} {rest : List Char}
    (h : scanSymbol cs = .ok (t, rest)) :
    t.textChars ≠ [] ∧ cs = t.textChars ++ rest := by
  unfold scanSymbol at h
  split at h
  · rename_i s hf
    simp only [Except.ok.injEq, Prod.mk.injEq] at h
    obtain ⟨ht, hrest⟩ := h
    subst ht hrest
    have hp := List.find?_some hf
    exact ⟨symbol_as_str_ne_nil s, isPrefixOf_append _ cs hp⟩
  · exact Except.noConfusion h

theorem scanCharTok_append {cs : List Char} {t : Token} {rest : List Char}
    (h : scanCharTok cs = .ok (t, rest)) :
    t.textChars ≠ [] ∧ '$' :: cs = t.textChars ++ rest := by
  cases cs with
  | nil => simp [scanCharTok] at h
  | cons c cs' =>
    simp only [scanCharTok] at h
    split_ifs at h with h1
    · cases hesc : scanEscape cs' with
      | none => simp [hesc] at h
      | some ev =>
        obtain ⟨esc, v⟩ := ev
        simp only [hesc, Except.ok.injEq, Prod.mk.injEq] at h
        obtain ⟨ht, hrest⟩ := h
        obtain ⟨hene, heq⟩ := scanEscape_append hesc
        subst ht hrest h1
        refine ⟨by simp [toList_mk], ?_⟩
        simp only [textChars_char, toList_mk, List.cons_append]
        exact congrArg (fun l => '$' :: '\\' :: l) heq
    · simp only [Except.ok.injEq, Prod.mk.injEq] at h
      obtain ⟨ht, hrest⟩ := h
      subst ht hrest
      exact ⟨by simp [toList_mk], by simp [toList_mk]⟩

theorem scanStr_append {cs : List Char} {t : Token} {rest : List Char}
    (h : scanStr cs = .ok (t, rest)) :
    t.textChars ≠ [] ∧ Char.ofNat 34 :: cs = t.textChars ++ rest := by
  unfold scanStr at h
  cases hb : scanStrBody (Char.ofNat 34) cs.length cs with
  | none => simp [hb] at h
  | some cvr =>
    obtain ⟨con, val, rest2⟩ := cvr
    simp only [hb, Except.ok.injEq, Prod.mk.injEq] at h
    obtain ⟨ht, hrest⟩ := h
    obtain ⟨hcne, hceq⟩ := scanStrBody_append _ _ _ _ _ hb
    subst ht hrest
    exact ⟨by simp [toList_mk], by simp [toList_mk, hceq]⟩

theorem scanQuotedAtom_append {cs : List Char} {t : Token} {rest : List Char}
    (h : scanQuotedAtom cs = .ok (t, rest)) :
    t.textChars ≠ [] ∧ Char.ofNat 39 :: cs = t.textChars ++ rest := by
  unfold scanQuotedAtom at h
  cases hb : scanStrBody (Char.ofNat 39) cs.length cs with
  | none => simp [hb] at h
  | some cvr =>
    obtain ⟨con, val, rest2⟩ := cvr
    simp only [hb, Except.ok.injEq, Prod.mk.injEq] at h
    obtain ⟨ht, hrest⟩ := h
    obtain ⟨hcne, hceq⟩ := scanStrBody_append _ _ _ _ _ hb
    subst ht hrest
    exact ⟨by simp [toList_mk], by simp [toList_mk, hceq]⟩

theorem scanComment_append {c : Char} (cs : List Char) (hc : (c != '\n') = true) :
    (scanComment (c :: cs)).1.textChars ≠ [] ∧
      c :: cs = (scanComment (c :: cs)).1.textChars ++ (scanComment (c :: cs)).2 := by
  simp only [scanComment, textChars_comment, toList_mk]
  constructor
  · simp [List.takeWhile_cons, hc]
  · exact (List.takeWhile_append_dropWhile _ _).symm

theorem scanVar_append (c : Char) (cs : List Char) :
    (scanVar c cs).1.textChars ≠ [] ∧
      c :: cs = (scanVar c cs).1.textChars ++ (scanVar c cs).2 := by
  simp only [scanVar, textChars_var, toList_mk]
  exact ⟨by simp, by simp [List.takeWhile_append_dropWhile]⟩

theorem scanAtom_append (c : Char) (cs : List Char) :
    (scanAtom c cs).1.textChars ≠ [] ∧
      c :: cs = (scanAtom c cs).1.textChars ++ (scanAtom c cs).2 := by
  unfold scanAtom
  cases hk : Keyword.from_str (String.mk (c :: cs.takeWhile isNameChar)) with
  | some k =>
    have hstr := keyword_as_str_of_from_str hk
    simp only [hk, textChars_keyword, hstr, toList_mk]
    exact ⟨by simp, by simp [List.takeWhile_append_dropWhile]⟩
  | none =>
    simp only [hk, textChars_atom, toList_mk]
    exact ⟨by simp, by simp [List.takeWhile_append_dropWhile]⟩

theorem whitespace_as_char_from_char {c : Char} (h : isWhitespaceChar c = true) :
    Whitespace.as_char (Whitespace.from_char c) = c := by
  simp only [isWhitespaceChar, decide_eq_true_eq] at h
  rcases h with h | h | h | h | h
  · obtain rfl : c = ' ' := char_toNat_inj h
    decide
  · obtain rfl : c = '\t' := char_toNat_inj h
    decide
  · obtain rfl : c = '\r' := char_toNat_inj h
    decide
  · obtain rfl : c = '\n' := char_toNat_inj h
    decide
  · obtain rfl : c = '\u00A0' := char_toNat_inj h
    decide

theorem scanNumber_append {cs : List Char} {t : Token} {rest : List Char}
    (h : scanNumber cs = .ok (t, rest)) : t.textChars ≠ [] ∧ cs = t.textChars ++ rest := by
  unfold scanNumber at h
  cases hd1 : scanDigitsPart isErlDigit cs with
  | error e => simp [hd1] at h
  | ok p =>
    obtain ⟨ipart, rest1⟩ := p
    obtain ⟨hine, hieq⟩ := scanDigitsPart_append hd1
    simp only [hd1] at h
    cases rest1 with
    | nil =>
      simp only [Except.ok.injEq, Prod.mk.injEq] at h
      obtain ⟨ht, hrest⟩ := h
      subst ht hrest
      refine ⟨by simpa [toList_mk] using hine, ?_⟩
      simpa [toList_mk] using hieq
    | cons c1 rest2 =>
      simp only [] at h
      split_ifs at h with hhash hbase hdot hexp2
      · -- radix path (hhash : c1 = '#', hbase negated by split over error)
        cases hd2 : scanDigitsPart (isBaseDigit (digitsVal 10 (stripUnder ipart))) rest2 with
        | error e => simp [hd2] at h
        | ok p2 =>
          obtain ⟨dpart, rest3⟩ := p2
          obtain ⟨hdne, hdeq⟩ := scanDigitsPart_append hd2
          simp only [hd2] at h
          cases rest3 with
          | cons d tl =>
            simp only [] at h
            split_ifs at h with halnum
            simp only [Except.ok.injEq, Prod.mk.injEq] at h
            obtain ⟨ht, hrest⟩ := h
            subst ht hrest
            refine ⟨by simp [toList_mk], ?_⟩
            simp only [textChars_integer, toList_mk]
            rw [hieq, hdeq]
            simp [List.append_assoc]
          | nil =>
            simp only [Except.ok.injEq, Prod.mk.injEq] at h
            obtain ⟨ht, hrest⟩ := h
            subst ht hrest
            refine ⟨by simp [toList_mk], ?_⟩
            simp only [textChars_integer, toList_mk]
            rw [hieq, hdeq]
            simp [List.append_assoc]
      · -- fraction path (hdot : c1 = '.')
        cases rest2 with
        | cons d tl =>
          simp only [] at h
          split_ifs at h with hdig2
          · cases hd2 : scanDigitsPart isErlDigit (d :: tl) with
            | error e => simp [hd2] at h
            | ok p2 =>
              obtain ⟨fpart, rest3⟩ := p2
              obtain ⟨hfne, hfeq⟩ := scanDigitsPart_append hd2
              simp only [hd2] at h
              cases rest3 with
              | cons e2 tl2 =>
                simp only [] at h
                split_ifs at h with hexp
                · cases hep : scanExpPart (e2 :: tl2) with
                  | error er => simp [hep] at h
                  | ok p3 =>
                    obtain ⟨epart, ex, rest4⟩ := p3
                    obtain ⟨hene, heeq⟩ := scanExpPart_append hep
                    simp only [hep, Except.ok.injEq, Prod.mk.injEq] at h
                    obtain ⟨ht, hrest⟩ := h
                    subst ht hrest
                    refine ⟨by simp [toList_mk], ?_⟩
                    simp only [textChars_float, toList_mk]
                    rw [hieq, hfeq, heeq]
                    simp [List.append_assoc]
                · simp only [Except.ok.injEq, Prod.mk.injEq] at h
                  obtain ⟨ht, hrest⟩ := h
                  subst ht hrest
                  refine ⟨by simp [toList_mk], ?_⟩
                  simp only [textChars_float, toList_mk]
                  rw [hieq, hfeq]
                  simp [List.append_assoc]
              | nil =>
                simp only [Except.ok.injEq, Prod.mk.injEq] at h
                obtain ⟨ht, hrest⟩ := h
                subst ht hrest
                refine ⟨by simp [toList_mk], ?_⟩
                simp only [textChars_float, toList_mk]
                rw [hieq, hfeq]
                simp [List.append_assoc]
          · simp only [Except.ok.injEq, Prod.mk.injEq] at h
            obtain ⟨ht, hrest⟩ := h
            subst ht hrest
            refine ⟨by simpa [toList_mk] using hine, ?_⟩
            simpa [toList_mk] using hieq
        | nil =>
          simp only [Except.ok.injEq, Prod.mk.injEq] at h
          obtain ⟨ht, hrest⟩ := h
          subst ht hrest
          refine ⟨by simpa [toList_mk] using hine, ?_⟩
          simpa [toList_mk] using hieq
      · -- exponent-only path (hexp2 : c1 = 'e' or 'E')
        cases hep : scanExpPart (c1 :: rest2) with
        | error er => simp [hep] at h
        | ok p3 =>
          obtain ⟨epart, ex, rest4⟩ := p3
          obtain ⟨hene, heeq⟩ := scanExpPart_append hep
          simp only [hep, Except.ok.injEq, Prod.mk.injEq] at h
          obtain ⟨ht, hrest⟩ := h
          subst ht hrest
          refine ⟨by simp [toList_mk, hine], ?_⟩
          simp only [textChars_float, toList_mk]
          rw [hieq, heeq]
          simp [List.append_assoc]
      · -- plain integer
        simp only [Except.ok.injEq, Prod.mk.injEq] at h
        obtain ⟨ht, hrest⟩ := h
        subst ht hrest
        refine ⟨by simpa [toList_mk] using hine, ?_⟩
        simpa [toList_mk] using hieq

theorem scanOne_append {c : Char} {cs : List Char} {t : Token} {rest : List Char}
    (h : scanOne c cs = .ok (t, rest)) :
    t.textChars ≠ [] ∧ c :: cs = t.textChars ++ rest := by
  unfold scanOne at h
  split_ifs at h with hws hpc hdol hq1 hq2 hdig hvar hlow
  · simp only [Except.ok.injEq, Prod.mk.injEq] at h
    obtain ⟨ht, hrest⟩ := h
    subst ht hrest
    simp only [textChars_whitespace, whitespace_as_char_from_char hws]
    exact ⟨by simp, rfl⟩
  · simp only [Except.ok.injEq] at h
    have hcomm := scanComment_append (c := c) cs (by subst hpc; decide)
    rw [h] at hcomm
    exact hcomm
  · subst hdol
    exact scanCharTok_append h
  · subst hq1
    exact scanStr_append h
  · subst hq2
    exact scanQuotedAtom_append h
  · exact scanNumber_append h
  · simp only [Except.ok.injEq] at h
    have hv := scanVar_append c cs
    rw [h] at hv
    exact hv
  · simp only [Except.ok.injEq] at h
    have ha := scanAtom_append c cs
    rw [h] at ha
    exact ha
  · exact scanSymbol_append h

/-! ## Driver lemmas -/

theorem advance_offset (p : Position) (c : Char) :
    (Position.advance p c).offset = p.offset + 1 := by
  unfold Position.advance
  split_ifs <;> rfl

theorem advanceOver_offset (cs : List Char) : ∀ p : Position,
    (advanceOver p cs).offset = p.offset + cs.length := by
  induction cs with
  | nil => intro p; rfl
  | cons c cs' ih =>
    intro p
    show (advanceOver (Position.advance p c) cs').offset = _
    rw [ih, advance_offset]
    simp
    omega

theorem tokenizeLoop_lossless : ∀ (fuel : Nat) (pos : Position) (cs : List Char)
    (ts : List PosToken), tokenizeLoop fuel pos cs = (ts, none) → textsConcat ts = cs := by
  intro fuel
  induction fuel with
  | zero =>
    intro pos cs ts h
    cases cs with
    | nil =>
      simp only [tokenizeLoop, Prod.mk.injEq] at h
      rw [← h.1]
      rfl
    | cons c cs' => simp [tokenizeLoop] at h
  | succ fuel ih =>
    intro pos cs ts h
    cases cs with
    | nil =>
      simp only [tokenizeLoop, Prod.mk.injEq] at h
      rw [← h.1]
      rfl
    | cons c cs' =>
      simp only [tokenizeLoop] at h
      cases hs : scanOne c cs' with
      | error e => simp [hs] at h
      | ok p =>
        obtain ⟨t, rest⟩ := p
        simp only [hs] at h
        cases hrec : tokenizeLoop fuel (advanceOver pos t.textChars) rest with
        | mk ts' err =>
          simp only [hrec, Prod.mk.injEq] at h
          obtain ⟨hts, herr⟩ := h
          subst hts herr
          obtain ⟨hne, heq⟩ := scanOne_append hs
          simp only [textsConcat]
          rw [ih _ rest ts' hrec, ← heq]

theorem concatText_data (ts : List PosToken) : (concatText ts).data = textsConcat ts := by
  induction ts with
  | nil => rfl
  | cons pt ts' ih =>
    simp only [concatText, textsConcat, String.data_append, ih]
    rfl

/-! ## Claim C1: lossless tokenization -/

/-- Claim C1: for every source string that tokenizes without error,
concatenating the raw text of every produced token, in emission order,
reproduces the source exactly. -/
theorem tokenize_lossless (s : String) (ts : List PosToken)
    (h : tokenize s = (ts, none)) : concatText ts = s := by
  apply String.ext
  rw [concatText_data]
  exact tokenizeLoop_lossless _ _ _ _ h

/-- Witness for C1 on the concrete source `"ok."`. -/
theorem tokenize_lossless_witness :
    tokenize "ok." = ([⟨.atom "ok" "ok", ⟨1, 1, 0, 0⟩, ⟨1, 3, 2, 2⟩⟩,
        ⟨.symbol .Dot, ⟨1, 3, 2, 2⟩, ⟨1, 4, 3, 3⟩⟩], none) ∧
      concatText [⟨.atom "ok" "ok", ⟨1, 1, 0, 0⟩, ⟨1, 3, 2, 2⟩⟩,
        ⟨.symbol .Dot, ⟨1, 3, 2, 2⟩, ⟨1, 4, 3, 3⟩⟩] = "ok." := by
  have h : tokenize "ok." = ([⟨.atom "ok" "ok", ⟨1, 1, 0, 0⟩, ⟨1, 3, 2, 2⟩⟩,
      ⟨.symbol .Dot, ⟨1, 3, 2, 2⟩, ⟨1, 4, 3, 3⟩⟩], none) := by decide
  exact ⟨h, tokenize_lossless _ _ h⟩

/-! ## Claim C8: adjacent tokens meet exactly -/

theorem tokenizeLoop_chain : ∀ (fuel : Nat) (pos : Position) (cs : List Char),
    List.Chain' (fun a b => b.startPos = a.endPos) (tokenizeLoop fuel pos cs).1 ∧
    (∀ pt, (tokenizeLoop fuel pos cs).1.head? = some pt → pt.startPos = pos) := by
  intro fuel
  induction fuel with
  | zero =>
    intro pos cs
    cases cs <;> simp [tokenizeLoop]
  | succ fuel ih =>
    intro pos cs
    cases cs with
    | nil => simp [tokenizeLoop]
    | cons c cs' =>
      simp only [tokenizeLoop]
      cases hs : scanOne c cs' with
      | error e => simp
      | ok p =>
        obtain ⟨t, rest⟩ := p
        cases hrec : tokenizeLoop fuel (advanceOver pos t.textChars) rest with
        | mk ts' err =>
          simp only [hrec]
          constructor
          · rw [List.chain'_cons']
            constructor
            · intro b hb
              have h2 := (ih (advanceOver pos t.textChars) rest).2
              rw [hrec] at h2
              exact h2 b hb
            · have h1 := (ih (advanceOver pos t.textChars) rest).1
              rw [hrec] at h1
              exact h1
          · intro pt hpt
            simp only [List.head?_cons, Option.some.injEq] at hpt
            rw [← hpt]

/-- Claim C8: for every input and every pair of adjacent produced tokens,
token n+1's start position equals token n's end position. -/
theorem position_adjacency (s : String) :
    List.Chain' (fun a b => b.startPos = a.endPos) (tokenize s).1 :=
  (tokenizeLoop_chain s.toList.length Position.initial s.toList).1

/-! ## Claim C9: errors carry the offending position and are terminal -/

theorem tokenizeLoop_err_after : ∀ (fuel : Nat) (pos : Position) (cs : List Char)
    (ts : List PosToken) (e : Err), tokenizeLoop fuel pos cs = (ts, some e) →
    pos.offset + (textsConcat ts).length ≤ e.position.offset := by
  intro fuel
  induction fuel with
  | zero =>
    intro pos cs ts e h
    cases cs with
    | nil => simp [tokenizeLoop] at h
    | cons c cs' =>
      simp only [tokenizeLoop, Prod.mk.injEq] at h
      obtain ⟨hts, he⟩ := h
      subst hts
      injection he with he2
      subst he2
      simp [textsConcat]
  | succ fuel ih =>
    intro pos cs ts e h
    cases cs with
    | nil => simp [tokenizeLoop] at h
    | cons c cs' =>
      simp only [tokenizeLoop] at h
      cases hs : scanOne c cs' with
      | error er =>
        simp only [hs, Prod.mk.injEq] at h
        obtain ⟨hts, he⟩ := h
        subst hts
        injection he with he2
        subst he2
        simp only [textsConcat, List.length_nil, Nat.add_zero, advanceOver_offset]
        omega
      | ok p =>
        obtain ⟨t, rest⟩ := p
        simp only [hs] at h
        cases hrec : tokenizeLoop fuel (advanceOver pos t.textChars) rest with
        | mk ts' err =>
          simp only [hrec, Prod.mk.injEq] at h
          obtain ⟨hts, herr⟩ := h
          subst hts herr
          have := ih (advanceOver pos t.textChars) rest ts' e hrec
          rw [advanceOver_offset] at this
          simp only [textsConcat, List.length_append]
          omega

/-- Claim C9: every error carries the position of the offending character —
the dangling underscore in `"1_"` is reported exactly at the underscore
(line 1, column 2, offset 1) and an unterminated string is reported at its
opening delimiter — no partial token is returned for the failed scan, and the
error is the terminal item of the sequence: every token the run did produce
lies entirely before the error position (no recovery after it). -/
theorem error_positioning :
    tokenize "1_" = ([], some ⟨.malformedNumber, ⟨1, 2, 1, 1⟩⟩) ∧
    tokenize (String.mk [Char.ofNat 34, 'a', 'b']) =
      ([], some ⟨.unterminatedLiteral, ⟨1, 1, 0, 0⟩⟩) ∧
    (∀ (s : String) (ts : List PosToken) (e : Err), tokenize s = (ts, some e) →
      (textsConcat ts).length ≤ e.position.offset) := by
  refine ⟨by decide, by decide, ?_⟩
  intro s ts e h
  have := tokenizeLoop_err_after _ _ _ _ _ h
  simpa [Position.initial] using this

/-- Witness for C9 at the concrete erroneous input `"1_"`. -/
theorem error_positioning_witness :
    tokenize "1_" = ([], some ⟨.malformedNumber, ⟨1, 2, 1, 1⟩⟩) ∧
    (textsConcat []).length ≤ (Position.mk 1 2 1 1).offset := by
  have h := error_positioning.1
  exact ⟨h, error_positioning.2.2 "1_" [] ⟨.malformedNumber, ⟨1, 2, 1, 1⟩⟩ h⟩

/-! ## Claim C3: keyword reclassification of unquoted atoms -/

theorem scanOne_lowercase {c : Char} (hc : isLowercaseLetter c = true) (cs : List Char) :
    scanOne c cs = .ok (scanAtom c cs) := by
  have hnat := hc
  simp only [isLowercaseLetter, decide_eq_true_eq] at hnat
  have h1 : ¬(isWhitespaceChar c = true) := by
    simp only [isWhitespaceChar, decide_eq_true_eq]
    omega
  have h2 : c ≠ '%' := fun he => absurd (he ▸ hnat) (by decide)
  have h3 : c ≠ '$' := fun he => absurd (he ▸ hnat) (by decide)
  have h4 : c ≠ Char.ofNat 34 := fun he => absurd (he ▸ hnat) (by decide)
  have h5 : c ≠ Char.ofNat 39 := fun he => absurd (he ▸ hnat) (by decide)
  have h6 : ¬(isErlDigit c = true) := by
    simp only [isErlDigit, decide_eq_true_eq]
    omega
  have h7 : ¬(isUppercaseLetter c = true ∨ c = '_') := by
    rintro (hu | he)
    · simp only [isUppercaseLetter, decide_eq_true_eq] at hu
      omega
    · exact absurd (he ▸ hnat) (by decide)
  unfold scanOne
  rw [if_neg h1, if_neg h2, if_neg h3, if_neg h4, if_neg h5, if_neg h6, if_neg h7, if_pos hc]

/-- Claim C3: an unquoted atom whose exact text is a reserved word is emitted
as a Keyword token (same text and position), never as an Atom; any other
unquoted atom text is emitted as an Atom token; and a quoted atom — even one
spelling a reserved word — stays an Atom token. -/
theorem atom_keyword_reclassification :
    (∀ k : Keyword, tokenize (Keyword.as_str k) =
      ([⟨.keyword k, Position.initial,
         advanceOver Position.initial (Keyword.as_str k).toList⟩], none)) ∧
    (∀ (c : Char) (cs : List Char), isLowercaseLetter c = true →
      (∀ a ∈ cs, isNameChar a = true) →
      scanOne c cs = .ok ((match Keyword.from_str (String.mk (c :: cs)) with
        | some k => Token.keyword k
        | none => Token.atom (String.mk (c :: cs)) (String.mk (c :: cs))), [])) ∧
    (∀ k : Keyword,
      tokenize (String.mk (Char.ofNat 39 :: (Keyword.as_str k).toList ++ [Char.ofNat 39])) =
      ([⟨.atom (String.mk (Char.ofNat 39 :: (Keyword.as_str k).toList ++ [Char.ofNat 39]))
           (Keyword.as_str k), Position.initial,
         advanceOver Position.initial
           (Char.ofNat 39 :: (Keyword.as_str k).toList ++ [Char.ofNat 39])⟩], none)) := by
  refine ⟨?_, ?_, ?_⟩
  · intro k
    cases k <;> decide
  · intro c cs hlow hall
    rw [scanOne_lowercase hlow]
    simp only [scanAtom]
    rw [List.takeWhile_eq_self_iff.mpr hall, List.dropWhile_eq_nil_iff.mpr hall]
    cases Keyword.from_str (String.mk (c :: cs)) <;> rfl
  · intro k
    cases k <;> decide

/-- Witness for C3 on a concrete non-keyword atom `foo`. -/
theorem atom_keyword_reclassification_witness :
    isLowercaseLetter 'f' = true ∧ (∀ a ∈ (['o', 'o'] : List Char), isNameChar a = true) ∧
    scanOne 'f' ['o', 'o'] =
      .ok (.atom (String.mk ['f', 'o', 'o']) (String.mk ['f', 'o', 'o']), []) :=
  ⟨by decide, by decide,
   atom_keyword_reclassification.2.1 'f' ['o', 'o'] (by decide) (by decide)⟩

/-! ## Claim C4: control escapes (corrected) -/

/-- Counterexample to C4 as stated: the spec's formula
`code(X) - code('A') + 1` at `X = 'a'` gives 97 - 65 + 1 = 33, but `$\^a`
decodes to control code 1 (as the spec's own testable property demands). -/
theorem caret_escape_formula_counterexample :
    tokenize (String.mk ['$', '\\', '^', 'a']) =
      ([⟨.char (String.mk ['$', '\\', '^', 'a']) (Char.ofNat 1),
         ⟨1, 1, 0, 0⟩, ⟨1, 5, 4, 4⟩⟩], none) ∧
    (Char.ofNat 1).toNat ≠ 'a'.toNat - 'A'.toNat + 1 :=
  ⟨by decide, by decide⟩

/-- Claim C4 (amended): the caret-prefixed control escape `\^X` decodes to
`code(X) mod 32`, which agrees with `code(X) - code('A') + 1` exactly on
uppercase `X`; in particular `$\t` decodes to tab and `$\^a` decodes to
control code 0x01. -/
theorem caret_escape_decode :
    (∀ (X : Char) (rest : List Char),
      scanEscape ('^' :: X :: rest) = some (['^', X], Char.ofNat (X.toNat % 32))) ∧
    (∀ X : Char, 65 ≤ X.toNat → X.toNat ≤ 90 → X.toNat % 32 = X.toNat - 65 + 1) ∧
    tokenize (String.mk ['$', '\\', 't']) =
      ([⟨.char (String.mk ['$', '\\', 't']) '\t', ⟨1, 1, 0, 0⟩, ⟨1, 4, 3, 3⟩⟩], none) ∧
    tokenize (String.mk ['$', '\\', '^', 'a']) =
      ([⟨.char (String.mk ['$', '\\', '^', 'a']) (Char.ofNat 1),
         ⟨1, 1, 0, 0⟩, ⟨1, 5, 4, 4⟩⟩], none) := by
  refine ⟨?_, ?_, by decide, by decide⟩
  · intro X rest
    rfl
  · intro X h1 h2
    omega

/-- Witness for C4 (amended) at the uppercase letter `B`. -/
theorem caret_escape_decode_witness :
    65 ≤ 'B'.toNat ∧ 'B'.toNat ≤ 90 ∧ 'B'.toNat % 32 = 'B'.toNat - 65 + 1 :=
  ⟨by decide, by decide, caret_escape_decode.2.1 'B' (by decide) (by decide)⟩

/-! ## Claim C5: numeric decoding -/

/-- Claim C5: decoding strips digit-group underscores while raw text keeps
them, and integers decode with unbounded precision: `"1_2_3"` is the integer
123, `"1_6#10"` the integer 16 (base 16, digits `10`), `"1.2_3e+1_0"` the
float 1.23e10 (exactly, in the rational value model), and a 39-digit literal
decodes to the exact value `2^128`. -/
theorem number_decoding :
    tokenize "1_2_3" =
      ([⟨.integer "1_2_3" 123, ⟨1, 1, 0, 0⟩, ⟨1, 6, 5, 5⟩⟩], none) ∧
    tokenize "1_6#10" =
      ([⟨.integer "1_6#10" 16, ⟨1, 1, 0, 0⟩, ⟨1, 7, 6, 6⟩⟩], none) ∧
    tokenize "1.2_3e+1_0" =
      ([⟨.float "1.2_3e+1_0" 12300000000, ⟨1, 1, 0, 0⟩, ⟨1, 11, 10, 10⟩⟩], none) ∧
    tokenize "340282366920938463463374607431768211456" =
      ([⟨.integer "340282366920938463463374607431768211456" (2 ^ 128),
         ⟨1, 1, 0, 0⟩, ⟨1, 40, 39, 39⟩⟩], none) :=
  ⟨by decide, by decide, by decide, by decide⟩

/-! ## Claim C6: whitespace granularity -/

/-- Claim C6: the whitespace characters are exactly space, tab, carriage
return, line feed and no-break space; `Whitespace::as_char` maps the five
variants to exactly these characters; each whitespace character becomes its
own single-character token (never merged with its neighbours); and
`"a\u{A0}b"` tokenizes to exactly the three tokens `a`, no-break space, `b`. -/
theorem whitespace_granularity :
    (∀ c : Char, isWhitespaceChar c = true ↔
      (c = ' ' ∨ c = '\t' ∨ c = '\r' ∨ c = '\n' ∨ c = NBSP)) ∧
    (Whitespace.as_char .Space = ' ' ∧ Whitespace.as_char .Tab = '\t' ∧
     Whitespace.as_char .Return = '\r' ∧ Whitespace.as_char .Newline = '\n' ∧
     Whitespace.as_char .NoBreakSpace = NBSP) ∧
    (∀ (c : Char) (cs : List Char), isWhitespaceChar c = true →
      scanOne c cs = .ok (.whitespace (Whitespace.from_char c), cs)) ∧
    tokenize (String.mk ['a', NBSP, 'b']) =
      ([⟨.atom "a" "a", ⟨1, 1, 0, 0⟩, ⟨1, 2, 1, 1⟩⟩,
        ⟨.whitespace .NoBreakSpace, ⟨1, 2, 1, 1⟩, ⟨1, 3, 2, 3⟩⟩,
        ⟨.atom "b" "b", ⟨1, 3, 2, 3⟩, ⟨1, 4, 3, 4⟩⟩], none) := by
  refine ⟨?_, by decide, ?_, by decide⟩
  · intro c
    constructor
    · intro h
      simp only [isWhitespaceChar, decide_eq_true_eq] at h
      rcases h with h | h | h | h | h
      · exact Or.inl (char_toNat_inj h)
      · exact Or.inr (Or.inl (char_toNat_inj h))
      · exact Or.inr (Or.inr (Or.inl (char_toNat_inj h)))
      · exact Or.inr (Or.inr (Or.inr (Or.inl (char_toNat_inj h))))
      · exact Or.inr (Or.inr (Or.inr (Or.inr (char_toNat_inj h))))
    · rintro (rfl | rfl | rfl | rfl | rfl) <;> decide
  · intro c cs h
    unfold scanOne
    rw [if_pos h]

/-- Witness for C6 at the no-break space character. -/
theorem whitespace_granularity_witness :
    isWhitespaceChar NBSP = true ∧
    scanOne NBSP ['b'] = .ok (.whitespace (Whitespace.from_char NBSP), ['b']) :=
  ⟨by decide, whitespace_granularity.2.2.1 NBSP ['b'] (by decide)⟩

/-! ## Claim C7: longest-match symbol recognition -/

/-- Claim C7: the symbol candidate table is ordered by non-increasing lexeme
length (3-character lexemes first, then 2, then 1), recognition commits to
the first exact prefix match, it covers every `Symbol` variant, and `"=:="`
tokenizes as the single symbol ExactEq, never as `=`, `:`, `=`. -/
theorem symbol_longest_match :
    List.Chain' (fun a b => (Symbol.as_str b).length ≤ (Symbol.as_str a).length) symbols ∧
    (∀ s : Symbol, s ∈ symbols) ∧
    tokenize "=:=" = ([⟨.symbol .ExactEq, ⟨1, 1, 0, 0⟩, ⟨1, 4, 3, 3⟩⟩], none) := by
  refine ⟨?_, ?_, by decide⟩
  · simp [symbols, List.chain'_cons, Symbol.as_str]
    decide
  · intro s
    cases s <;> decide

end ErlTokenize
